import Mathlib

/-!
Verification of `download_ghibli_images.py`.

The script has a pure filename sanitizer (`sanitize_filename`), an
extension-derivation step using `os.path.splitext`, and a sequential
fetch-and-download pipeline with success/error counters.  Strings are
modelled as `List Char` (with `String` wrappers where convenient);
network and filesystem effects are modelled by explicit oracles.
-/

namespace Ghibli

/-! ## Filename sanitizer

Python source:
```
sanitized = re.sub(r'[\\/*?:"<>|]', "", filename)
sanitized = sanitized.replace(" ", "_")
sanitized = re.sub(r'_+', '_', sanitized)
sanitized = sanitized.strip('_')
```
-/

/-- The characters removed by the first `re.sub`: `\ / * ? : " < > |`. -/
def isInvalidChar (c : Char) : Bool :=
  c = '\\' || c = '/' || c = '*' || c = '?' || c = ':' || c = '"' ||
  c = '<' || c = '>' || c = '|'

/-- Model of `re.sub(r'[\\/*?:"<>|]', "", s)`: delete every invalid character. -/
def removeInvalid (l : List Char) : List Char :=
  l.filter (fun c => !(isInvalidChar c))

/-- Model of `s.replace(" ", "_")`: every space becomes an underscore. -/
def replaceSpaces (l : List Char) : List Char :=
  l.map (fun c => if c = ' ' then '_' else c)

/-- Model of `re.sub(r'_+', '_', s)`: collapse each maximal run of underscores to a
single underscore.  Equivalently, drop every `_` that is immediately
followed by another `_` (keeping the last of each run). -/
def collapseUnderscores : List Char → List Char
  | [] => []
  | [c] => [c]
  | a :: b :: rest =>
    if a = '_' ∧ b = '_' then collapseUnderscores (b :: rest)
    else a :: collapseUnderscores (b :: rest)

/-- Remove trailing underscores (the right half of `s.strip('_')`). -/
def dropTrailingUnderscores : List Char → List Char
  | [] => []
  | c :: rest =>
    if c = '_' ∧ dropTrailingUnderscores rest = [] then []
    else c :: dropTrailingUnderscores rest

/-- Model of `s.strip('_')`: remove leading and trailing underscores. -/
def stripUnderscores (l : List Char) : List Char :=
  dropTrailingUnderscores (l.dropWhile (fun c => c = '_'))

/-- The function `sanitize_filename`, at the level of character lists. -/
def sanitizeChars (l : List Char) : List Char :=
  stripUnderscores (collapseUnderscores (replaceSpaces (removeInvalid l)))

/-- The function `sanitize_filename` on strings. -/
def sanitize_filename (s : String) : String :=
  String.mk (sanitizeChars s.data)

/-- Returns `true` iff the list contains two adjacent underscores. -/
def hasDoubleUnderscore : List Char → Bool
  | a :: b :: rest => (a = '_' && b = '_') || hasDoubleUnderscore (b :: rest)
  | _ => false

/-! ## File-extension derivation

Python source:
```
file_extension = os.path.splitext(image_url)[1]
if not file_extension:
    file_extension = ".jpg"
```
`posixpath.splitext(p)` takes the last `'.'` occurring after the last `'/'`
and returns the suffix from that dot, unless every character of the final
component before that dot is itself a `'.'` (the hidden-file rule), in which
case the extension is empty.
-/

/-- The substring after the last `'/'` (the whole string if no `'/'`). -/
def lastSegment (l : List Char) : List Char :=
  (l.reverse.takeWhile (fun c => c ≠ '/')).reverse

/-- The suffix starting at the last `'.'` of `l` (empty if `l` has no dot). -/
def dotSuffix (l : List Char) : List Char :=
  if '.' ∈ l then '.' :: (l.reverse.takeWhile (fun c => c ≠ '.')).reverse
  else []

/-- The extension component of `posixpath.splitext`: the suffix from the last
dot of the final `'/'`-separated component, with CPython's hidden-file rule
(leading dots of the component never start an extension). -/
def splitextExt (l : List Char) : List Char :=
  let stripped := (lastSegment l).dropWhile (fun c => c = '.')
  if '.' ∈ stripped then dotSuffix stripped else []

/-- The extension the script appends: `os.path.splitext(url)[1]`, defaulting
to `".jpg"` when that is empty. -/
def codeExtension (l : List Char) : List Char :=
  let e := splitextExt l
  if e = [] then ".jpg".data else e

/-- The extension rule as the specification states it: the (dotted) substring
from the last `'.'` in the last path segment of the URL, defaulting to
`".jpg"` when that segment contains no `'.'`. -/
def specExtension (l : List Char) : List Char :=
  let seg := lastSegment l
  if '.' ∈ seg then dotSuffix seg else ".jpg".data

/-- The amended extension rule: as `specExtension`, except that a dot only
starts an extension if some character of the segment before the last dot is
not itself a dot (so a segment consisting of leading dots plus a suffix, such
as `.png`, falls back to the `".jpg"` default). -/
def amendedExtension (l : List Char) : List Char :=
  let seg := lastSegment l
  if '.' ∈ seg.dropWhile (fun c => c = '.') then dotSuffix seg else ".jpg".data

/-! ## Pipeline model

`fetch_and_download_ghibli_images` issues one metadata GET, then one image
GET per record.  Network behavior is an oracle: the observed metadata
response, and for each record index the observed image response.
`requests.Response.raise_for_status` raises exactly for status codes in
`[400, 600)`.
-/

/-- One film record as used by the script: `film.get("title")` and
`film.get("image")`, each possibly absent. -/
structure Film where
  title : Option String
  image : Option String
deriving DecidableEq, Repr

/-- Python truthiness test `not image_url` for an optional string: true when
the field is absent or holds the empty string. -/
def strFalsy (o : Option String) : Bool :=
  o.getD "" = ""

/-- The metadata response the script observes: a raised
`requests.exceptions.RequestException` (network error / timeout), or a
response with a status code and a body, where the body is `none` when
`response.json()` raises `ValueError` and otherwise the parsed list. -/
inductive MetaResponse
  | netErr
  | resp (status : Nat) (body : Option (List Film))

/-- The image response observed by one `download_image` call: a
`RequestException` raised before any bytes are written, or a response with a
status code, a byte body, and a flag for an `IOError` while opening/writing
the destination file. -/
inductive ImgResponse
  | netErr
  | resp (status : Nat) (body : List Nat) (ioErr : Bool)

/-- Result of `download_image`: the returned boolean, and `some body` when a
complete file was written at the destination path (`none` otherwise). -/
structure DlOutcome where
  success : Bool
  written : Option (List Nat)
deriving DecidableEq, Repr

/-- Model of `download_image(url, filepath)` under an observed response `r`:
`raise_for_status` raises for status in `[400, 600)` before the file is
opened, so no file exists then; an `IOError` during the write returns
`False`; otherwise the body is written and `True` returned. -/
def download_image (r : ImgResponse) : DlOutcome :=
  match r with
  | .netErr => ⟨false, none⟩
  | .resp status body ioErr =>
    if 400 ≤ status ∧ status < 600 then ⟨false, none⟩
    else if ioErr then ⟨false, none⟩
    else ⟨true, some body⟩

/-- The constant `DOWNLOAD_DIR` from the script. -/
def DOWNLOAD_DIR : String := "ghibli_movie_images"

/-- The destination path for a record:
`os.path.join(DOWNLOAD_DIR, f"{base_filename}{file_extension}")`. -/
def filepathFor (title url : String) : String :=
  DOWNLOAD_DIR ++ "/" ++ sanitize_filename title ++ String.mk (codeExtension url.data)

/-- State accumulated by the per-film loop: files written (path and bytes, in
order), warning lines emitted, and the two counters. -/
structure LoopResult where
  files : List (String × List Nat)
  warnings : List String
  success : Nat
  errors : Nat
deriving Repr

/-- The per-film loop of `fetch_and_download_ghibli_images`, processing the
films from position `i` on, with `dl` giving the image response observed for
the record at each index. -/
def processFilms (dl : Nat → ImgResponse) (i : Nat) : List Film → LoopResult
  | [] => ⟨[], [], 0, 0⟩
  | film :: rest =>
    let title := film.title.getD "unknown_title"
    if strFalsy film.image then
      let r := processFilms dl (i + 1) rest
      ⟨r.files, ("Warning: No image URL found for film: " ++ title) :: r.warnings,
        r.success, r.errors⟩
    else
      let url := film.image.getD ""
      let path := filepathFor title url
      let o := download_image (dl i)
      let r := processFilms dl (i + 1) rest
      match o.written with
      | some body =>
        ⟨(path, body) :: r.files, r.warnings,
          (if o.success then r.success + 1 else r.success),
          (if o.success then r.errors else r.errors + 1)⟩
      | none =>
        ⟨r.files, r.warnings,
          (if o.success then r.success + 1 else r.success),
          (if o.success then r.errors else r.errors + 1)⟩

/-- Outcome of one whole run: the process exit code, the loop state, and the
summary lines printed at the end (empty when the run aborted early). -/
structure RunResult where
  exitCode : Nat
  files : List (String × List Nat)
  warnings : List String
  success : Nat
  errors : Nat
  summary : List String
deriving Repr

/-- The summary block: the success line is printed unconditionally, the
failure line only when `error_count > 0`. -/
def summaryLines (s e : Nat) : List String :=
  ["--- Download Complete ---",
   "Successfully downloaded " ++ toString s ++ " images."] ++
  (if 0 < e then ["Failed to download " ++ toString e ++ " images."] else [])

/-- Model of `fetch_and_download_ghibli_images` under observed responses: a
`RequestException` on the metadata GET (including one raised by
`raise_for_status`, i.e. status in `[400, 600)`) exits with code 1, as does a
`ValueError` from `response.json()`; otherwise the loop runs over all records
and the function returns normally (exit code 0). -/
def fetch_and_download_ghibli_images (meta : MetaResponse)
    (dl : Nat → ImgResponse) : RunResult :=
  match meta with
  | .netErr => ⟨1, [], [], 0, 0, []⟩
  | .resp status body =>
    if 400 ≤ status ∧ status < 600 then ⟨1, [], [], 0, 0, []⟩
    else
      match body with
      | none => ⟨1, [], [], 0, 0, []⟩
      | some films =>
        let r := processFilms dl 0 films
        ⟨0, r.files, r.warnings, r.success, r.errors,
          summaryLines r.success r.errors⟩

/-! ## Sanitizer lemmas -/

theorem hasDU_cons {a : Char} {l : List Char}
    (h : hasDoubleUnderscore (a :: l) = false) : hasDoubleUnderscore l = false := by
  cases l with
  | nil => rfl
  | cons b r =>
    simp only [hasDoubleUnderscore, Bool.or_eq_false_iff] at h
    exact h.2

theorem collapse_cons (x : Char) (xs : List Char) :
    ∃ t, collapseUnderscores (x :: xs) = x :: t := by
  induction xs generalizing x with
  | nil => exact ⟨[], rfl⟩
  | cons b rest ih =>
    obtain ⟨t, ht⟩ := ih b
    by_cases h : x = '_' ∧ b = '_'
    · refine ⟨t, ?_⟩
      rw [collapseUnderscores, if_pos h, ht, h.1, h.2]
    · exact ⟨collapseUnderscores (b :: rest), by rw [collapseUnderscores, if_neg h]⟩

theorem hasDU_collapse (l : List Char) :
    hasDoubleUnderscore (collapseUnderscores l) = false := by
  induction l using collapseUnderscores.induct with
  | case1 => rfl
  | case2 c => rfl
  | case3 a b rest h ih =>
    rw [collapseUnderscores, if_pos h]
    exact ih
  | case4 a b rest h ih =>
    rw [collapseUnderscores, if_neg h]
    obtain ⟨t, ht⟩ := collapse_cons b rest
    rw [ht]
    rw [ht] at ih
    simp only [hasDoubleUnderscore, Bool.or_eq_false_iff]
    refine ⟨?_, ih⟩
    by_cases ha : a = '_'
    · by_cases hb : b = '_'
      · exact absurd ⟨ha, hb⟩ h
      · simp [hb]
    · simp [ha]

theorem mem_collapse {c : Char} {l : List Char}
    (h : c ∈ collapseUnderscores l) : c ∈ l := by
  induction l using collapseUnderscores.induct with
  | case1 => exact h
  | case2 d => exact h
  | case3 a b rest hc ih =>
    rw [collapseUnderscores, if_pos hc] at h
    exact List.mem_cons_of_mem a (ih h)
  | case4 a b rest hc ih =>
    rw [collapseUnderscores, if_neg hc] at h
    rcases List.mem_cons.mp h with h | h
    · exact h ▸ List.mem_cons_self a _
    · exact List.mem_cons_of_mem a (ih h)

theorem dropTrailing_prefixOf (l : List Char) :
    dropTrailingUnderscores l <+: l := by
  induction l with
  | nil => exact ⟨[], rfl⟩
  | cons c rest ih =>
    rw [dropTrailingUnderscores]
    by_cases h : c = '_' ∧ dropTrailingUnderscores rest = []
    · rw [if_pos h]
      exact ⟨c :: rest, rfl⟩
    · rw [if_neg h]
      obtain ⟨t, ht⟩ := ih
      exact ⟨t, by rw [List.cons_append, ht]⟩

theorem hasDU_append_left {s t : List Char}
    (h : hasDoubleUnderscore (s ++ t) = false) : hasDoubleUnderscore s = false := by
  induction s with
  | nil => rfl
  | cons a s' ih =>
    cases s' with
    | nil => rfl
    | cons b s'' =>
      simp only [List.cons_append, hasDoubleUnderscore, Bool.or_eq_false_iff] at h ⊢
      exact ⟨h.1, ih (by simpa using h.2)⟩

theorem hasDU_of_prefixOf {s l : List Char} (hp : s <+: l)
    (h : hasDoubleUnderscore l = false) : hasDoubleUnderscore s = false := by
  obtain ⟨t, rfl⟩ := hp
  exact hasDU_append_left h

theorem hasDU_dropWhile {p : Char → Bool} {l : List Char}
    (h : hasDoubleUnderscore l = false) :
    hasDoubleUnderscore (l.dropWhile p) = false := by
  induction l with
  | nil => rfl
  | cons a rest ih =>
    rw [List.dropWhile_cons]
    by_cases hp : p a = true
    · rw [if_pos hp]
      exact ih (hasDU_cons h)
    · rw [if_neg hp]
      exact h

theorem getLast?_dropTrailing (l : List Char) :
    ((dropTrailingUnderscores l).getLast? == some '_') = false := by
  induction l with
  | nil => rfl
  | cons c rest ih =>
    rw [dropTrailingUnderscores]
    by_cases h : c = '_' ∧ dropTrailingUnderscores rest = []
    · rw [if_pos h]
      rfl
    · rw [if_neg h]
      cases hr : dropTrailingUnderscores rest with
      | nil =>
        have hc : ¬ c = '_' := fun hc => h ⟨hc, hr⟩
        simp [List.getLast?, hc]
      | cons d r' =>
        rw [hr] at ih
        rw [List.getLast?_cons_cons]
        exact ih

theorem dropWhile_head_false {p : Char → Bool} {l : List Char} {c : Char}
    {t : List Char} (h : l.dropWhile p = c :: t) : p c = false := by
  induction l with
  | nil => simp at h
  | cons a rest ih =>
    rw [List.dropWhile_cons] at h
    by_cases hp : p a = true
    · rw [if_pos hp] at h
      exact ih h
    · rw [if_neg hp] at h
      cases h
      exact Bool.not_eq_true _ ▸ by simpa using hp

theorem head?_strip (l : List Char) :
    ((stripUnderscores l).head? == some '_') = false := by
  cases hs : stripUnderscores l with
  | nil => rfl
  | cons c t =>
    obtain ⟨t', ht'⟩ := dropTrailing_prefixOf (l.dropWhile (fun c => c = '_'))
    rw [stripUnderscores] at hs
    rw [hs, List.cons_append] at ht'
    have hc : (fun c => decide (c = '_')) c = false :=
      dropWhile_head_false ht'.symm
    simp only [decide_eq_false_iff_not] at hc
    simp [hc]

theorem getLast?_strip (l : List Char) :
    ((stripUnderscores l).getLast? == some '_') = false :=
  getLast?_dropTrailing _

theorem mem_strip {c : Char} {l : List Char} (h : c ∈ stripUnderscores l) : c ∈ l := by
  have h1 : c ∈ (l.dropWhile (fun c => c = '_')) :=
    (dropTrailing_prefixOf _).sublist.subset h
  exact (List.dropWhile_sublist _).subset h1

theorem mem_sanitizeChars {c : Char} {l : List Char} (h : c ∈ sanitizeChars l) :
    c ∈ replaceSpaces (removeInvalid l) :=
  mem_collapse (mem_strip h)

theorem not_invalid_of_mem_replaceSpaces {c : Char} {l : List Char}
    (h : c ∈ replaceSpaces (removeInvalid l)) : isInvalidChar c = false := by
  obtain ⟨d, hd, hdc⟩ := List.mem_map.mp h
  simp only [removeInvalid] at hd
  have hdi := (List.mem_filter.mp hd).2
  simp only [Bool.not_eq_true'] at hdi
  by_cases hsp : d = ' '
  · rw [if_pos hsp] at hdc
    rw [← hdc]
    rfl
  · rw [if_neg hsp] at hdc
    rw [← hdc]
    exact hdi

theorem not_space_of_mem_replaceSpaces {c : Char} {l : List Char}
    (h : c ∈ replaceSpaces l) : ¬ c = ' ' := by
  obtain ⟨d, _, hdc⟩ := List.mem_map.mp h
  by_cases hsp : d = ' '
  · rw [if_pos hsp] at hdc
    rw [← hdc]
    decide
  · rw [if_neg hsp] at hdc
    rw [← hdc]
    exact hsp

theorem hasDU_sanitizeChars (l : List Char) :
    hasDoubleUnderscore (sanitizeChars l) = false := by
  unfold sanitizeChars stripUnderscores
  exact hasDU_of_prefixOf (dropTrailing_prefixOf _) (hasDU_dropWhile (hasDU_collapse _))

/-! ## Fixed-point lemmas (stages are the identity on sanitized output) -/

theorem collapse_eq_self {l : List Char} (h : hasDoubleUnderscore l = false) :
    collapseUnderscores l = l := by
  induction l using collapseUnderscores.induct with
  | case1 => rfl
  | case2 c => rfl
  | case3 a b rest hc ih =>
    exfalso
    simp only [hasDoubleUnderscore, Bool.or_eq_false_iff] at h
    rw [hc.1, hc.2] at h
    simp at h
  | case4 a b rest hc ih =>
    rw [collapseUnderscores, if_neg hc, ih (hasDU_cons h)]

theorem dropTrailing_eq_self {l : List Char}
    (h : (l.getLast? == some '_') = false) : dropTrailingUnderscores l = l := by
  induction l with
  | nil => rfl
  | cons c rest ih =>
    cases rest with
    | nil =>
      have hc : ¬ c = '_' := by
        simp only [List.getLast?_singleton] at h
        simpa using h
      rw [dropTrailingUnderscores, if_neg (fun hh => hc hh.1)]
      rfl
    | cons d r' =>
      rw [List.getLast?_cons_cons] at h
      have hr := ih h
      rw [dropTrailingUnderscores, hr, if_neg (fun hh => List.cons_ne_nil d r' hh.2)]

theorem strip_eq_self {l : List Char}
    (h1 : (l.head? == some '_') = false)
    (h2 : (l.getLast? == some '_') = false) : stripUnderscores l = l := by
  have hd : l.dropWhile (fun c => c = '_') = l := by
    cases l with
    | nil => rfl
    | cons c rest =>
      have hc : ¬ c = '_' := by
        simp only [List.head?_cons] at h1
        simpa using h1
      rw [List.dropWhile_cons_of_neg (by simpa using hc)]
  rw [stripUnderscores, hd]
  exact dropTrailing_eq_self h2

theorem removeInvalid_sanitized (l : List Char) :
    removeInvalid (sanitizeChars l) = sanitizeChars l := by
  rw [removeInvalid]
  refine List.filter_eq_self.mpr fun c hc => ?_
  have := not_invalid_of_mem_replaceSpaces (mem_sanitizeChars hc)
  simp [this]

theorem replaceSpaces_sanitized (l : List Char) :
    replaceSpaces (sanitizeChars l) = sanitizeChars l := by
  rw [replaceSpaces]
  have hid : ∀ c ∈ sanitizeChars l, (if c = ' ' then '_' else c) = c := by
    intro c hc
    have := not_space_of_mem_replaceSpaces (mem_sanitizeChars hc)
    rw [if_neg this]
  calc (sanitizeChars l).map (fun c => if c = ' ' then '_' else c)
      = (sanitizeChars l).map id := List.map_congr_left hid
    _ = sanitizeChars l := List.map_id _

theorem sanitizeChars_idem (l : List Char) :
    sanitizeChars (sanitizeChars l) = sanitizeChars l := by
  conv_lhs => rw [sanitizeChars]
  rw [removeInvalid_sanitized, replaceSpaces_sanitized,
    collapse_eq_self (hasDU_sanitizeChars l)]
  have h1 : ((sanitizeChars l).head? == some '_') = false := head?_strip _
  have h2 : ((sanitizeChars l).getLast? == some '_') = false := getLast?_strip _
  exact strip_eq_self h1 h2

/-! ## Claim theorems: sanitizer -/

/-- C1: for every input string, the sanitizer's output contains none of the
characters `\ / : * ? " < > |`, contains no run of two or more consecutive
underscores, and has no leading or trailing underscore. -/
theorem claim1_sanitizer_safe (s : String) :
    (sanitize_filename s).data.all (fun c => !(isInvalidChar c)) = true ∧
    hasDoubleUnderscore (sanitize_filename s).data = false ∧
    ((sanitize_filename s).data.head? == some '_') = false ∧
    ((sanitize_filename s).data.getLast? == some '_') = false := by
  refine ⟨?_, hasDU_sanitizeChars s.data, head?_strip _, getLast?_strip _⟩
  refine List.all_eq_true.mpr fun c hc => ?_
  have := not_invalid_of_mem_replaceSpaces (mem_sanitizeChars hc)
  simp [this]

/-- C6: the sanitizer is idempotent — applying it to its own output yields
the same output. -/
theorem claim6_sanitizer_idempotent (s : String) :
    sanitize_filename (sanitize_filename s) = sanitize_filename s := by
  show String.mk (sanitizeChars (sanitizeChars s.data)) = String.mk (sanitizeChars s.data)
  rw [sanitizeChars_idem]

/-- C7: the title `"Castle in the Sky: Part 1"` sanitizes to exactly
`"Castle_in_the_Sky_Part_1"`. -/
theorem claim7_castle_title :
    sanitize_filename "Castle in the Sky: Part 1" = "Castle_in_the_Sky_Part_1" := by
  decide

/-! ## Claim theorems: extension derivation (C2) -/

theorem takeWhile_append_eq {p : Char → Bool} {l₁ l₂ : List Char}
    (h : ∃ x ∈ l₁, p x = false) :
    (l₁ ++ l₂).takeWhile p = l₁.takeWhile p := by
  induction l₁ with
  | nil =>
    obtain ⟨x, hx, _⟩ := h
    exact absurd hx (List.not_mem_nil x)
  | cons a l ih =>
    rw [List.cons_append, List.takeWhile_cons, List.takeWhile_cons]
    by_cases hp : p a = true
    · rw [if_pos hp, if_pos hp]
      congr 1
      apply ih
      obtain ⟨x, hx, hpx⟩ := h
      rcases List.mem_cons.mp hx with rfl | hx'
      · rw [hp] at hpx
        exact absurd hpx (by simp)
      · exact ⟨x, hx', hpx⟩
    · rw [if_neg hp, if_neg hp]

theorem dotSuffix_append {a b : List Char} (h : '.' ∈ b) :
    dotSuffix (a ++ b) = dotSuffix b := by
  rw [dotSuffix, dotSuffix, if_pos h, if_pos (List.mem_append.mpr (Or.inr h))]
  have ht : ((a ++ b).reverse.takeWhile (fun c => c ≠ '.'))
      = (b.reverse.takeWhile (fun c => c ≠ '.')) := by
    rw [List.reverse_append]
    exact takeWhile_append_eq ⟨'.', List.mem_reverse.mpr h, by decide⟩
  rw [ht]

/-- C2 counterexample: for the image URL `"a/.png"` the last path segment is
`".png"`, which contains a dot, so the specified rule yields extension
`".png"`; but `os.path.splitext` treats the leading dot as a hidden-file
marker, returns an empty extension, and the script falls back to `".jpg"`. -/
theorem claim2_counterexample :
    codeExtension "a/.png".data = ".jpg".data ∧
    specExtension "a/.png".data = ".png".data ∧
    ¬ codeExtension "a/.png".data = specExtension "a/.png".data := by
  refine ⟨by decide, by decide, by decide⟩

/-- C2 amended: for every record with an image URL, the extension appended to
the sanitized title is the substring from the last `'.'` of the last
`'/'`-separated segment of the URL, provided some character of that segment
before the last dot is not itself a dot; otherwise (no dot at all, or only
leading dots before it) the extension defaults to `".jpg"`. -/
theorem claim2_amended_extension (url : List Char) :
    codeExtension url = amendedExtension url := by
  simp only [codeExtension, amendedExtension, splitextExt]
  by_cases h : '.' ∈ (lastSegment url).dropWhile (fun c => c = '.')
  · rw [if_pos h, if_pos h]
    have hne : ¬ dotSuffix ((lastSegment url).dropWhile (fun c => c = '.')) = [] := by
      rw [dotSuffix, if_pos h]
      exact List.cons_ne_nil _ _
    rw [if_neg hne]
    conv_rhs =>
      rw [← List.takeWhile_append_dropWhile (p := fun c => c = '.') (l := lastSegment url)]
    exact (dotSuffix_append h).symm
  · rw [if_neg h, if_neg h, if_pos rfl]

/-! ## Claim theorems: pipeline -/

/-- C3 counterexample: `raise_for_status` raises only for statuses in
`[400, 600)`, so a non-2xx metadata response with status 300 whose body is a
valid JSON list does not terminate the run: the script exits 0 and downloads
images. -/
theorem claim3_counterexample :
    ¬ (200 ≤ (300 : Nat) ∧ (300 : Nat) ≤ 299) ∧
    (fetch_and_download_ghibli_images
        (.resp 300 (some [⟨some "t", some "http://h/a.png"⟩]))
        (fun _ => .resp 200 [7] false)).exitCode = 0 ∧
    (fetch_and_download_ghibli_images
        (.resp 300 (some [⟨some "t", some "http://h/a.png"⟩]))
        (fun _ => .resp 200 [7] false)).files
      = [("ghibli_movie_images/t.png", [7])] := by
  refine ⟨by decide, by decide, by decide⟩

/-- C3 amended: if the metadata GET raises a network error, or returns a 4xx
or 5xx status, or its body fails to parse as JSON, the program reports the
error and terminates with exit code 1, having performed no downloads. -/
theorem claim3_amended_fatal_metadata (meta : MetaResponse) (dl : Nat → ImgResponse)
    (h : meta = .netErr ∨
         (∃ st body, meta = .resp st body ∧ 400 ≤ st ∧ st < 600) ∨
         (∃ st, meta = .resp st none)) :
    (fetch_and_download_ghibli_images meta dl).exitCode = 1 ∧
    (fetch_and_download_ghibli_images meta dl).files = [] ∧
    (fetch_and_download_ghibli_images meta dl).success = 0 ∧
    (fetch_and_download_ghibli_images meta dl).errors = 0 := by
  rcases h with rfl | ⟨st, body, rfl, hst⟩ | ⟨st, rfl⟩
  · exact ⟨rfl, rfl, rfl, rfl⟩
  · simp only [fetch_and_download_ghibli_images, if_pos hst]
    refine ⟨?_, ?_, ?_, ?_⟩ <;> trivial
  · by_cases hst : 400 ≤ st ∧ st < 600
    · simp only [fetch_and_download_ghibli_images, if_pos hst]
      refine ⟨?_, ?_, ?_, ?_⟩ <;> trivial
    · simp only [fetch_and_download_ghibli_images, if_neg hst]
      refine ⟨?_, ?_, ?_, ?_⟩ <;> trivial

/-- Witness for the amended C3: a network error on the metadata GET. -/
theorem claim3_witness :
    (fetch_and_download_ghibli_images .netErr (fun _ => .netErr)).exitCode = 1 ∧
    (fetch_and_download_ghibli_images .netErr (fun _ => .netErr)).files = [] ∧
    (fetch_and_download_ghibli_images .netErr (fun _ => .netErr)).success = 0 ∧
    (fetch_and_download_ghibli_images .netErr (fun _ => .netErr)).errors = 0 :=
  claim3_amended_fatal_metadata .netErr (fun _ => .netErr) (Or.inl rfl)

/-- C4 counterexample: an image response with the non-2xx status 300 does not
make `raise_for_status` raise, so `download_image` writes the body and
returns `True`, and the record is counted as a success, not a failure. -/
theorem claim4_counterexample :
    ¬ (200 ≤ (300 : Nat) ∧ (300 : Nat) ≤ 299) ∧
    download_image (.resp 300 [5] false) = ⟨true, some [5]⟩ ∧
    (processFilms (fun _ => .resp 300 [5] false) 0 [⟨some "t", some "u.png"⟩]).success = 1 ∧
    (processFilms (fun _ => .resp 300 [5] false) 0 [⟨some "t", some "u.png"⟩]).errors = 0 := by
  refine ⟨by decide, by decide, by decide, by decide⟩

/-- C4 amended: if the GET for one record's image URL returns a 4xx or 5xx
status, the record is counted as a failure, no file is produced for it, and
all subsequent records are still processed in order. -/
theorem claim4_amended_client_server_error (dl : Nat → ImgResponse) (i : Nat)
    (film : Film) (rest : List Film) (st : Nat) (body : List Nat) (ioErr : Bool)
    (himg : strFalsy film.image = false)
    (hdl : dl i = .resp st body ioErr)
    (hst : 400 ≤ st ∧ st < 600) :
    (processFilms dl i (film :: rest)).errors
        = (processFilms dl (i + 1) rest).errors + 1 ∧
    (processFilms dl i (film :: rest)).success
        = (processFilms dl (i + 1) rest).success ∧
    (processFilms dl i (film :: rest)).files
        = (processFilms dl (i + 1) rest).files ∧
    (processFilms dl i (film :: rest)).warnings
        = (processFilms dl (i + 1) rest).warnings := by
  have hdo : download_image (dl i) = ⟨false, none⟩ := by
    rw [hdl, download_image, if_pos hst]
  simp only [processFilms, himg, hdo, Bool.false_eq_true, if_false]
  refine ⟨?_, ?_, ?_, ?_⟩ <;> trivial

/-- Witness for the amended C4: one record with a URL answered by a 404. -/
theorem claim4_witness :
    (processFilms (fun _ => .resp 404 [] false) 0 [⟨some "t", some "u.png"⟩]).errors
        = (processFilms (fun _ => .resp 404 [] false) 1 []).errors + 1 ∧
    (processFilms (fun _ => .resp 404 [] false) 0 [⟨some "t", some "u.png"⟩]).success
        = (processFilms (fun _ => .resp 404 [] false) 1 []).success ∧
    (processFilms (fun _ => .resp 404 [] false) 0 [⟨some "t", some "u.png"⟩]).files
        = (processFilms (fun _ => .resp 404 [] false) 1 []).files ∧
    (processFilms (fun _ => .resp 404 [] false) 0 [⟨some "t", some "u.png"⟩]).warnings
        = (processFilms (fun _ => .resp 404 [] false) 1 []).warnings :=
  claim4_amended_client_server_error (fun _ => .resp 404 [] false) 0
    ⟨some "t", some "u.png"⟩ [] 404 [] false (by decide) rfl (by decide)

/-- C5: a record whose image URL is absent produces exactly one warning and
is skipped: files, success count and error count are those of the remaining
records. -/
theorem claim5_missing_image_skipped (dl : Nat → ImgResponse) (i : Nat)
    (title : Option String) (rest : List Film) :
    processFilms dl i ({ title := title, image := none } :: rest)
      = { files := (processFilms dl (i + 1) rest).files,
          warnings := ("Warning: No image URL found for film: "
              ++ title.getD "unknown_title")
            :: (processFilms dl (i + 1) rest).warnings,
          success := (processFilms dl (i + 1) rest).success,
          errors := (processFilms dl (i + 1) rest).errors } := by
  rfl

/-- C9: a record whose `image` field holds the empty string is treated
exactly like a record with no `image` field, because the skip condition tests
Python falsiness of the value. -/
theorem claim9_empty_string_image (dl : Nat → ImgResponse) (i : Nat)
    (title : Option String) (rest : List Film) :
    processFilms dl i ({ title := title, image := some "" } :: rest)
      = processFilms dl i ({ title := title, image := none } :: rest) := by
  rfl

/-- Counter invariant for the loop, over a whole film list. -/
theorem processFilms_counter_sum (dl : Nat → ImgResponse) (i : Nat)
    (films : List Film) :
    (processFilms dl i films).success + (processFilms dl i films).errors
      = films.countP (fun f => !(strFalsy f.image)) := by
  induction films generalizing i with
  | nil => rfl
  | cons film rest ih =>
    by_cases h : strFalsy film.image = true
    · simp only [processFilms, h, if_true, List.countP_cons, h]
      simp [ih]
    · have h' : strFalsy film.image = false := by simpa using h
      simp only [processFilms, h', Bool.false_eq_true, if_false, List.countP_cons, h']
      cases hdo : download_image (dl i) with
      | mk s w =>
        cases w with
        | none =>
          cases s <;> simp [hdo, ← ih (i + 1)] <;> omega
        | some b =>
          cases s <;> simp [hdo, ← ih (i + 1)] <;> omega

/-- C10: after processing any initial prefix of the record list, the success
counter plus the error counter equals the number of records seen so far whose
image URL was present and non-empty; in particular (taking the whole list)
the final report's counts sum to the number of non-skipped records. -/
theorem claim10_counter_invariant (dl : Nat → ImgResponse) (i : Nat)
    (films : List Film) (k : Nat) :
    (processFilms dl i (films.take k)).success
        + (processFilms dl i (films.take k)).errors
      = (films.take k).countP (fun f => !(strFalsy f.image)) :=
  processFilms_counter_sum dl i (films.take k)

/-- C8: on a metadata response that parses as a list (status outside
`[400, 600)`), the run completes with exit code 0 regardless of per-image
failures, prints the success-count line unconditionally, and prints the
error-count line exactly when the error count is nonzero. -/
theorem claim8_summary_and_exit (st : Nat) (films : List Film)
    (dl : Nat → ImgResponse) (h : ¬ (400 ≤ st ∧ st < 600)) :
    (fetch_and_download_ghibli_images (.resp st (some films)) dl).exitCode = 0 ∧
    (fetch_and_download_ghibli_images (.resp st (some films)) dl).summary
      = "--- Download Complete ---"
        :: ("Successfully downloaded "
            ++ toString (fetch_and_download_ghibli_images (.resp st (some films)) dl).success
            ++ " images.")
        :: (if 0 < (fetch_and_download_ghibli_images (.resp st (some films)) dl).errors
            then ["Failed to download "
                ++ toString (fetch_and_download_ghibli_images (.resp st (some films)) dl).errors
                ++ " images."]
            else []) := by
  simp only [fetch_and_download_ghibli_images, if_neg h]
  refine ⟨?_, ?_⟩ <;> trivial

/-- Witness for C8: two records whose downloads both fail with 404 still give
exit code 0, with the failure line printed. -/
theorem claim8_witness :
    (fetch_and_download_ghibli_images
        (.resp 200 (some [⟨some "a", some "u.png"⟩, ⟨some "b", some "v.png"⟩]))
        (fun _ => .resp 404 [] false)).exitCode = 0 ∧
    (fetch_and_download_ghibli_images
        (.resp 200 (some [⟨some "a", some "u.png"⟩, ⟨some "b", some "v.png"⟩]))
        (fun _ => .resp 404 [] false)).summary
      = "--- Download Complete ---"
        :: ("Successfully downloaded "
            ++ toString (fetch_and_download_ghibli_images
                (.resp 200 (some [⟨some "a", some "u.png"⟩, ⟨some "b", some "v.png"⟩]))
                (fun _ => .resp 404 [] false)).success
            ++ " images.")
        :: (if 0 < (fetch_and_download_ghibli_images
                (.resp 200 (some [⟨some "a", some "u.png"⟩, ⟨some "b", some "v.png"⟩]))
                (fun _ => .resp 404 [] false)).errors
            then ["Failed to download "
                ++ toString (fetch_and_download_ghibli_images
                    (.resp 200 (some [⟨some "a", some "u.png"⟩, ⟨some "b", some "v.png"⟩]))
                    (fun _ => .resp 404 [] false)).errors
                ++ " images."]
            else []) :=
  claim8_summary_and_exit 200 [⟨some "a", some "u.png"⟩, ⟨some "b", some "v.png"⟩]
    (fun _ => .resp 404 [] false) (by decide)

end Ghibli
